import Mathlib

/-!
Verification of the ICS calendar ingestion pipeline (CalendarICS.cpp) of the
Zeiger repository.  The C++ source is shallowly embedded: `time_t` becomes
`Int` (seconds since the Unix epoch), Arduino `String` becomes `List Char`,
the byte stream becomes `List Char`, and the stateful line-by-line parser
becomes an explicit state-passing step function.  The civil-calendar
conversions performed by `timegm`/`mktime`/`gmtime_r` are modelled with the
standard proleptic-Gregorian day arithmetic (identical to glibc's
normalising field arithmetic); `mktime` under the measured fixed local
offset `ofs` is `timegm - ofs`, matching the source's own offset model
(`LocalOffset` is a constant for one parse pass).
-/

/-- Days since 1970-01-01 of a civil date, with out-of-range months and days
normalised by field arithmetic exactly as `mktime`/`timegm` normalise a
`struct tm` (month overflow moves the year, day overflow moves into later
months). -/
def daysFromCivil (y0 m0 d : Int) : Int :=
  let y1 : Int := y0 + (m0 - 1).fdiv 12
  let m : Int := (m0 - 1).emod 12 + 1
  let y : Int := if m ≤ 2 then y1 - 1 else y1
  let era : Int := y / 400
  let yoe : Int := y - era * 400
  let doy : Int := (153 * (m + (if 2 < m then -3 else 9)) + 2) / 5 + d - 1
  let doe : Int := yoe * 365 + yoe / 4 - yoe / 100 + doy
  era * 146097 + doe - 719468

/-- Inverse of `daysFromCivil` on canonical dates: the civil date
`(year, month, day)` of a day count since 1970-01-01. -/
def civilFromDays (z0 : Int) : Int × Int × Int :=
  let z : Int := z0 + 719468
  let era : Int := z / 146097
  let doe : Int := z % 146097
  let yoe : Int := (doe - doe / 1460 + doe / 36524 - doe / 146096) / 365
  let y : Int := yoe + era * 400
  let doy : Int := doe - (365 * yoe + yoe / 4 - yoe / 100)
  let mp : Int := (5 * doy + 2) / 153
  let d : Int := doy - (153 * mp + 2) / 5 + 1
  let m : Int := mp + (if mp < 10 then 3 else -9)
  (if m ≤ 2 then y + 1 else y, m, d)

/-- Broken-down time, mirroring the `struct tm` fields the source uses
(`tm_year` counts from 1900, `tm_mon` is 0-based). -/
structure Tm where
  year : Int
  mon : Int
  mday : Int
  hour : Int
  min : Int
  sec : Int
  deriving DecidableEq, Repr

/-- `timegm_compat` of CalendarICS.cpp: interpret broken-down fields as UTC
and produce an epoch second count, with glibc's field normalisation. -/
def timegm_compat (t : Tm) : Int :=
  daysFromCivil (1900 + t.year) (t.mon + 1) t.mday * 86400
    + t.hour * 3600 + t.min * 60 + t.sec

/-- `mktime` under the measured constant local offset `ofs`
(local epoch = UTC epoch + ofs, hence UTC = fields-as-epoch − ofs). -/
def mktimeOfs (ofs : Int) (t : Tm) : Int :=
  timegm_compat t - ofs

/-- `gmtime_r`: decompose an epoch second count into broken-down UTC
fields. -/
def gmtimeModel (t : Int) : Tm :=
  let days : Int := t / 86400
  let secs : Int := t % 86400
  let c := civilFromDays days
  { year := c.1 - 1900, mon := c.2.1 - 1, mday := c.2.2,
    hour := secs / 3600, min := (secs % 3600) / 60, sec := secs % 60 }

/-- Whitespace test of C `isspace`, used by `atol` and `String::trim`. -/
def isSpaceChar (c : Char) : Bool :=
  c = ' ' || c = '\t' || c = '\n' || c = '\x0b' || c = '\x0c' || c = '\r'

/-- Decimal digit test. -/
def isDigitChar (c : Char) : Bool :=
  decide ('0' ≤ c) && decide (c ≤ '9')

/-- Value of a digit string (no sign), most significant first. -/
def digitsVal (s : List Char) : Int :=
  s.foldl (fun a c => 10 * a + ((c.toNat : Int) - 48)) 0

/-- Arduino `String::toInt` (C `atol`): skip leading whitespace, optional
sign, then a maximal digit run; 0 when no digits. -/
def strToInt (s : List Char) : Int :=
  let s1 := s.dropWhile isSpaceChar
  match s1 with
  | '-' :: rest => - digitsVal (rest.takeWhile isDigitChar)
  | '+' :: rest => digitsVal (rest.takeWhile isDigitChar)
  | _ => digitsVal (s1.takeWhile isDigitChar)

/-- Arduino `String::trim`: strip whitespace from both ends. -/
def trimList (s : List Char) : List Char :=
  ((s.dropWhile isSpaceChar).reverse.dropWhile isSpaceChar).reverse

/-- Substring containment, as in `String::indexOf(sub) >= 0`. -/
def containsSub (needle : List Char) : List Char → Bool
  | [] => needle.isEmpty
  | c :: t => needle.isPrefixOf (c :: t) || containsSub needle t

/-- `icsUnescape` of CalendarICS.cpp: one left-to-right pass over the text,
turning the ICS escapes into display characters. -/
def icsUnescape : List Char → List Char
  | [] => []
  | c :: rest =>
    if c = '\\' then
      match rest with
      | [] => ['\\']
      | n :: rest2 =>
        if n = 'n' ∨ n = 'N' then ' ' :: icsUnescape rest2
        else if n = '\\' ∨ n = ',' ∨ n = ';' then n :: icsUnescape rest2
        else '\\' :: icsUnescape (n :: rest2)
    else c :: icsUnescape rest

/-- `snprintf "%02d"` for the in-range field values produced by
`gmtimeModel`. -/
def pad2 (n : Int) : List Char :=
  [Char.ofNat (48 + (n / 10).toNat), Char.ofNat (48 + (n % 10).toNat)]

/-- `fmtHHMM_local_fromUTC` of CalendarICS.cpp: format a UTC epoch as local
"HH:MM" using the measured offset; non-positive epochs print "--:--". -/
def fmtHHMM_local_fromUTC (tUTC ofs : Int) : List Char :=
  if tUTC ≤ 0 then "--:--".toList
  else
    let tm := gmtimeModel (tUTC + ofs)
    pad2 tm.hour ++ ':' :: pad2 tm.min

/-- `spansToday` of CalendarICS.cpp: does `[startUTC, endUTC]` (or the
instant `startUTC` when no later end is given) overlap the local calendar
day of `refUTC`? -/
def spansToday (startUTC endUTC refUTC ofs : Int) : Bool :=
  let tmL := gmtimeModel (refUTC + ofs)
  let d0 : Tm := { tmL with hour := 0, min := 0, sec := 0 }
  let d1 : Tm := { tmL with hour := 23, min := 59, sec := 59 }
  let dayStartLocalUTC := timegm_compat d0 - ofs
  let dayEndLocalUTC := timegm_compat d1 - ofs
  let eEnd := if startUTC < endUTC then endUTC else startUTC
  !(decide (eEnd < dayStartLocalUTC) || decide (dayEndLocalUTC < startUTC))

/-- The UTC instant of local 00:00:00 of the local calendar day containing
`refUTC` (the day is the civil date of the offset-shifted epoch; its local
midnight is converted back to UTC by removing the offset).  This follows the
specification's wording of the day-overlap contract. -/
def localDayStartUTC (refUTC ofs : Int) : Int :=
  let c := civilFromDays ((refUTC + ofs) / 86400)
  daysFromCivil c.1 c.2.1 c.2.2 * 86400 - ofs

/-- The UTC instant of local 23:59:59 of the local calendar day containing
`refUTC`. -/
def localDayEndUTC (refUTC ofs : Int) : Int :=
  localDayStartUTC refUTC ofs + 86399

/-- `parseICSTime` of CalendarICS.cpp, modelled as the value the function
stores through its out-pointer: `some v` exactly when the source writes
`*out = v` (the all-day and timed paths), `none` when it returns before
writing (missing colon, short value, misplaced `T`, or a failed range
validation). -/
def parseICSTime (ofs : Int) (line : List Char) : Option Int :=
  let colon := line.findIdx (· = ':')
  if colon < line.length then
    let v0 := trimList (line.drop (colon + 1))
    let zulu : Bool := v0.getLast? = some 'Z' || v0.getLast? = some 'z'
    let v := if zulu then v0.dropLast else v0
    let tpos := v.findIdx (· = 'T')
    if tpos < v.length then
      if tpos < 8 then none
      else
        let d := v.take 8
        let t := v.drop (tpos + 1)
        let td0 := t.filter isDigitChar
        let td := (td0 ++ List.replicate (6 - td0.length) '0').take 6
        let yy := strToInt (d.take 4)
        let mo := strToInt ((d.drop 4).take 2)
        let dd := strToInt ((d.drop 6).take 2)
        let hh := strToInt (td.take 2)
        let mi := strToInt ((td.drop 2).take 2)
        let ss := strToInt ((td.drop 4).take 2)
        if mo < 1 ∨ 12 < mo ∨ dd < 1 ∨ 31 < dd ∨ 23 < hh ∨ 59 < mi ∨ 60 < ss
        then none
        else
          let tmv : Tm := { year := yy - 1900, mon := mo - 1, mday := dd,
                            hour := hh, min := mi, sec := ss }
          some (if zulu then timegm_compat tmv else mktimeOfs ofs tmv)
    else
      if v.length < 8 then none
      else
        let tmv : Tm := { year := strToInt (v.take 4) - 1900,
                          mon := strToInt ((v.drop 4).take 2) - 1,
                          mday := strToInt ((v.drop 6).take 2),
                          hour := 0, min := 0, sec := 0 }
        some (mktimeOfs ofs tmv)
  else none

/-- Boolean result of `parseICSTime` in the source: `true` exactly when a
value was stored and it is positive. -/
def parseICSTimeOk (ofs : Int) (line : List Char) : Bool :=
  match parseICSTime ofs line with
  | some v => decide (0 < v)
  | none => false

/-- `CalendarEvent` of Calendar.h (the transient candidate built while a
VEVENT block is open).  `time_t` fields default to 0 as in the source. -/
structure CalendarEvent where
  start : Int := 0
  end_ : Int := 0
  summary : List Char := []
  location : List Char := []
  cancelled : Bool := false
  deriving DecidableEq, Repr

/-- `CalItem` of Calendar.h: one display row (title and time range). -/
structure CalItem where
  title : List Char
  time : List Char
  deriving DecidableEq, Repr

/-- The parse state threaded through `flushLogical` in `fetchAndParse`. -/
structure PState where
  inEvent : Bool := false
  inAlarm : Bool := false
  cancelled : Bool := false
  cur : CalendarEvent := {}
  deriving DecidableEq, Repr

/-- The row construction performed at a qualifying `END:VEVENT` in
`flushLogical`: format "HH:MM-HH:MM" from start and effective end, unescape
SUMMARY, append the unescaped LOCATION parenthesised when non-empty, and
truncate the title to the 40-byte buffer (39 characters plus NUL). -/
def mkRow (ofs : Int) (cur : CalendarEvent) : CalItem :=
  let endUse := if cur.start < cur.end_ then cur.end_ else cur.start
  let time := fmtHHMM_local_fromUTC cur.start ofs
      ++ '-' :: fmtHHMM_local_fromUTC endUse ofs
  let title0 := icsUnescape cur.summary
  let loc := icsUnescape cur.location
  let title1 := if loc.isEmpty then title0
                else title0 ++ ' ' :: '(' :: (loc ++ [')'])
  let title2 := if 40 ≤ title1.length then title1.take 39 else title1
  { title := title2, time := time }

/-- `flushLogical` of `IcsCalendarProvider::fetchAndParse`: process one
logical line, returning the updated state and the row emitted (if any). -/
def flushLogical (ofs now : Int) (st : PState) (ln : List Char) :
    PState × Option CalItem :=
  if ("BEGIN:VALARM".toList).isPrefixOf ln then
    ({ st with inAlarm := true }, none)
  else if ("END:VALARM".toList).isPrefixOf ln then
    ({ st with inAlarm := false }, none)
  else if st.inAlarm then (st, none)
  else if ln = "BEGIN:VEVENT".toList then
    ({ st with inEvent := true, cancelled := false, cur := {} }, none)
  else if ln = "END:VEVENT".toList then
    if st.inEvent && !st.cancelled && decide (0 < st.cur.start)
        && !st.cur.summary.isEmpty
        && spansToday st.cur.start st.cur.end_ now ofs then
      ({ st with inEvent := false }, some (mkRow ofs st.cur))
    else ({ st with inEvent := false }, none)
  else if !st.inEvent then (st, none)
  else if ("DTSTART".toList).isPrefixOf ln then
    ({ st with cur :=
        { st.cur with start := (parseICSTime ofs ln).getD st.cur.start } },
     none)
  else if ("DTEND".toList).isPrefixOf ln then
    ({ st with cur :=
        { st.cur with end_ := (parseICSTime ofs ln).getD st.cur.end_ } },
     none)
  else if ("STATUS:".toList).isPrefixOf ln then
    (if containsSub ("CANCELLED".toList) ln then { st with cancelled := true }
     else st, none)
  else if ("SUMMARY:".toList).isPrefixOf ln then
    ({ st with cur := { st.cur with summary := ln.drop 8 } }, none)
  else if ("LOCATION:".toList).isPrefixOf ln then
    ({ st with cur := { st.cur with location := ln.drop 9 } }, none)
  else (st, none)

/-- `kLineBuf` of CalendarICS.cpp: the physical-line buffer holds at most
`kLineBuf - 1` characters. -/
def kLineBuf : Nat := 1024

/-- `readPhysLine`: consume one physical line from the remaining stream.
`readBytesUntil` stops at the first `'\n'` (consumed and discarded) or after
`kLineBuf - 1` stored characters; a single trailing `'\r'` is stripped.
`none` is the EOF condition `n == 0 && !available`. -/
def stripCR (l : List Char) : List Char :=
  if l.getLast? = some '\r' then l.dropLast else l

def readPhysLine (s : List Char) : Option (List Char × List Char) :=
  if s = [] then none
  else
    let pre := s.takeWhile (· ≠ '\n')
    if pre.length < kLineBuf - 1 then
      let rest := (s.dropWhile (· ≠ '\n')).drop 1
      if pre = [] ∧ rest = [] then none
      else some (stripCR pre, rest)
    else some (stripCR (pre.take (kLineBuf - 1)), s.drop (kLineBuf - 1))

theorem readPhysLine_rest_lt {s line rest : List Char}
    (h : readPhysLine s = some (line, rest)) : rest.length < s.length := by
  unfold readPhysLine at h
  split at h
  · exact absurd h (by simp)
  · rename_i hs
    have hlen : 0 < s.length := List.length_pos.mpr hs
    simp only at h
    split at h
    · split at h
      · exact absurd h (by simp)
      · simp only [Option.some.injEq, Prod.mk.injEq] at h
        have hdw : (s.dropWhile (· ≠ '\n')).length ≤ s.length :=
          (s.dropWhile_sublist (· ≠ '\n')).length_le
        rw [← h.2, List.length_drop]
        omega
    · simp only [Option.some.injEq, Prod.mk.injEq] at h
      rw [← h.2, List.length_drop]
      simp only [kLineBuf]
      omega

/-- `readLogicalLines` of CalendarICS.cpp: fold physical lines into logical
lines (a leading space or tab marks a continuation whose first character is
dropped), flushing the pending logical line at end of stream.  The loop is
given `s.length + 1` steps of fuel; one physical read always consumes at
least one character, so the fuel never runs out. -/
def readLogicalGo : Nat → List Char → Option (List Char) → List (List Char)
  | 0, _, acc => acc.elim [] (fun l => [l])
  | fuel + 1, s, acc =>
    match readPhysLine s with
    | none => acc.elim [] (fun l => [l])
    | some (line, rest) =>
      if line.head? = some ' ' ∨ line.head? = some '\t' then
        readLogicalGo fuel rest (some (acc.getD [] ++ line.tail))
      else
        match acc with
        | none => readLogicalGo fuel rest (some line)
        | some l => l :: readLogicalGo fuel rest (some line)

def readLogicalLines (s : List Char) : List (List Char) :=
  readLogicalGo (s.length + 1) s none

/-- `kUiNeededItems` of CalendarICS.cpp. -/
def kUiNeededItems : Int := 6

/-- The parse loop of `fetchAndParse` without the early-stop machinery:
every qualifying event of the document, in parse order. -/
def runAll (ofs now : Int) : PState → List (List Char) → List CalItem
  | _, [] => []
  | st, ln :: rest =>
    let p := flushLogical ofs now st ln
    p.2.toList ++ runAll ofs now p.1 rest

/-- The parse loop of `fetchAndParse` as written: each logical line is
processed only while `stopEarly` is unset, and after each line `stopEarly`
is set once `filled` reaches the caller capacity or `kUiNeededItems`. -/
def runCapped (ofs now maxn : Int) :
    PState → Bool → Int → List (List Char) → List CalItem
  | _, _, _, [] => []
  | st, stopEarly, filled, ln :: rest =>
    if stopEarly then runCapped ofs now maxn st stopEarly filled rest
    else
      let p := flushLogical ofs now st ln
      let filled' := filled + (if p.2.isSome then 1 else 0)
      let stop' := decide (maxn ≤ filled') || decide (kUiNeededItems ≤ filled')
      p.2.toList ++ runCapped ofs now maxn p.1 stop' filled' rest

/-- One HTTP response: status code and body bytes. -/
structure HttpResp where
  code : Int
  body : List Char
  deriving DecidableEq, Repr

/-- `fetchAndParse`: the transport is a function from the range flag to
`none` (connection-level failure) or a response.  Result is the source's
return value (row count, or −1 on HTTP error) together with the rows written
into the caller's buffer. -/
def fetchAndParse (tr : Bool → Option HttpResp) (ofs now maxn : Int)
    (useRangeTail : Bool) : Int × List CalItem :=
  match tr useRangeTail with
  | none => (-1, [])
  | some r =>
    if r.code = 200 ∨ r.code = 206 then
      let rows := runCapped ofs now maxn {} false 0 (readLogicalLines r.body)
      ((rows.length : Int), rows)
    else (-1, [])

/-- `readToday` of IcsCalendarProvider.  The second component records the
fetch attempts issued, as their range flags in order (`true` = tail
byte-range request, `false` = unranged full request). -/
def readToday (tr : Bool → Option HttpResp) (ofs now : Int)
    (connected hasUrl : Bool) (maxn : Int) : Int × List Bool :=
  if maxn ≤ 0 ∨ ¬connected ∨ ¬hasUrl then (0, [])
  else
    let f1 := (fetchAndParse tr ofs now maxn true).1
    if 0 ≤ f1 then
      if 0 < f1 then (f1, [true])
      else
        let f2 := (fetchAndParse tr ofs now maxn false).1
        ((if f2 < 0 then 0 else f2), [true, false])
    else (0, [true])

/-- The sequence of physical lines `readPhysLine` yields for a stream
(with the same fuel convention as `readLogicalGo`). -/
def codePhysLines : Nat → List Char → List (List Char)
  | 0, _ => []
  | fuel + 1, s =>
    match readPhysLine s with
    | none => []
    | some (line, rest) => line :: codePhysLines fuel rest

/-- Modelled from the claim's wording: split the byte stream on `'\n'`,
treating a final `'\n'` as a line terminator (POSIX lines; an empty stream
has no lines). -/
def specPhysLines (s : List Char) : List (List Char) :=
  if s = [] then []
  else if s.getLast? = some '\n' then (s.splitOn '\n').dropLast
  else s.splitOn '\n'

/-- Modelled from the claim's wording: fold continuation lines (leading
space or tab, that character removed) onto the previous logical line,
flushing the pending line at the end. -/
def foldContGo : List (List Char) → Option (List Char) → List (List Char)
  | [], acc => acc.elim [] (fun l => [l])
  | l :: rest, acc =>
    if l.head? = some ' ' ∨ l.head? = some '\t' then
      foldContGo rest (some (acc.getD [] ++ l.tail))
    else
      match acc with
      | none => foldContGo rest (some l)
      | some p => p :: foldContGo rest (some l)

/-- Modelled from the claim's wording: logical lines of a stream — split on
`'\n'`, strip one trailing `'\r'` from each physical line, fold
continuations, flush the pending line at end of stream. -/
def specLogicalLines (s : List Char) : List (List Char) :=
  foldContGo ((specPhysLines s).map stripCR) none

theorem icsUnescape_cons_ne (c : Char) (h : c ≠ '\\') (rest : List Char) :
    icsUnescape (c :: rest) = c :: icsUnescape rest := by
  rw [icsUnescape.eq_def]
  simp only [if_neg h]

theorem icsUnescape_no_backslash {s : List Char} (h : '\\' ∉ s) :
    icsUnescape s = s := by
  induction s with
  | nil => rfl
  | cons c t ih =>
    have hc : c ≠ '\\' := fun hc => h (hc ▸ List.mem_cons_self c t)
    rw [icsUnescape_cons_ne c hc, ih (fun ht => h (List.mem_cons_of_mem c ht))]

/-- C8: `icsUnescape` is a single left-to-right pass; `\n` and `\N` map to a
space, `\\`, `\,`, `\;` map to the literal second character, any other
backslash sequence (including a lone trailing backslash) passes through
unchanged, and it is the identity (hence idempotent) on input without
backslashes. -/
theorem claim_C8 :
    (∀ rest, icsUnescape ('\\' :: 'n' :: rest) = ' ' :: icsUnescape rest)
    ∧ (∀ rest, icsUnescape ('\\' :: 'N' :: rest) = ' ' :: icsUnescape rest)
    ∧ (∀ rest, icsUnescape ('\\' :: '\\' :: rest) = '\\' :: icsUnescape rest)
    ∧ (∀ rest, icsUnescape ('\\' :: ',' :: rest) = ',' :: icsUnescape rest)
    ∧ (∀ rest, icsUnescape ('\\' :: ';' :: rest) = ';' :: icsUnescape rest)
    ∧ (∀ c rest, c ≠ 'n' → c ≠ 'N' → c ≠ '\\' → c ≠ ',' → c ≠ ';' →
        icsUnescape ('\\' :: c :: rest) = '\\' :: c :: icsUnescape rest)
    ∧ icsUnescape ['\\'] = ['\\']
    ∧ (∀ c rest, c ≠ '\\' →
        icsUnescape (c :: rest) = c :: icsUnescape rest)
    ∧ (∀ s : List Char, '\\' ∉ s →
        icsUnescape s = s ∧ icsUnescape (icsUnescape s) = icsUnescape s) := by
  refine ⟨fun rest => by rw [icsUnescape.eq_def]; simp,
          fun rest => by rw [icsUnescape.eq_def]; simp,
          fun rest => by rw [icsUnescape.eq_def]; simp,
          fun rest => by rw [icsUnescape.eq_def]; simp,
          fun rest => by rw [icsUnescape.eq_def]; simp,
          fun c rest h1 h2 h3 h4 h5 => ?_,
          rfl,
          fun c rest hc => icsUnescape_cons_ne c hc rest,
          fun s h => ?_⟩
  · rw [show icsUnescape ('\\' :: c :: rest)
          = '\\' :: icsUnescape (c :: rest) from by
        rw [icsUnescape.eq_def]; simp [h1, h2, h3, h4, h5],
      icsUnescape_cons_ne c h3]
  · rw [icsUnescape_no_backslash h, icsUnescape_no_backslash h]
    exact ⟨rfl, rfl⟩

theorem claim_C8_witness :
    icsUnescape ('\\' :: 'x' :: "AB".toList) = '\\' :: 'x' :: "AB".toList
    ∧ icsUnescape ("AB".toList) = "AB".toList := by
  have h := claim_C8
  constructor
  · rw [h.2.2.2.2.2.1 'x' ("AB".toList) (by decide) (by decide) (by decide)
        (by decide) (by decide),
      (h.2.2.2.2.2.2.2.2 ("AB".toList) (by decide)).1]
  · exact (h.2.2.2.2.2.2.2.2 ("AB".toList) (by decide)).1

theorem pstate_eta_inAlarm (st : PState) (h : st.inAlarm = true) :
    { st with inAlarm := true } = st := by
  cases st
  simp_all

/-- C10: while the alarm state is active, any logical line that does not
begin `END:VALARM` leaves the whole parse state (including every field of
the candidate event) unchanged and emits no row; in particular an
`END:VEVENT` during an alarm neither emits nor closes the current event. -/
theorem claim_C10 (ofs now : Int) (st : PState) (ln : List Char)
    (ha : st.inAlarm = true)
    (hend : ("END:VALARM".toList).isPrefixOf ln = false) :
    flushLogical ofs now st ln = (st, none) := by
  unfold flushLogical
  rw [hend]
  by_cases hb : ("BEGIN:VALARM".toList).isPrefixOf ln
  · rw [hb]
    simp only [if_true, Bool.false_eq_true, if_false, pstate_eta_inAlarm st ha]
  · simp only [hb, Bool.false_eq_true, if_false, ha, if_true]

theorem claim_C10_witness :
    flushLogical 0 0
      { inEvent := true, inAlarm := true, cancelled := false,
        cur := { start := 1, end_ := 2, summary := ['S'], location := [],
                 cancelled := false } }
      ("END:VEVENT".toList)
    = ({ inEvent := true, inAlarm := true, cancelled := false,
         cur := { start := 1, end_ := 2, summary := ['S'], location := [],
                  cancelled := false } }, none) :=
  claim_C10 0 0 _ _ rfl (by decide)

theorem spansToday_iff (s e ref ofs : Int) :
    spansToday s e ref ofs = true ↔
      (localDayStartUTC ref ofs ≤ max e s ∧ s ≤ localDayEndUTC ref ofs) := by
  simp only [spansToday, localDayStartUTC, localDayEndUTC, gmtimeModel,
    timegm_compat]
  simp only [show ∀ a : Int, 1900 + (a - 1900) = a from fun a => by ring,
    show ∀ a : Int, a - 1 + 1 = a from fun a => by ring,
    show ∀ a b : Int, (if a < b then b else a) = max a b from fun a b => by
      rcases lt_or_le a b with h | h
      · simp [h, max_eq_right h.le]
      · simp [not_lt.mpr h, max_eq_left h]]
  simp only [Bool.not_eq_true', Bool.or_eq_false_iff, decide_eq_false_iff_not,
    not_lt]
  omega

/-- C4: the day-overlap predicate holds exactly when the effective end
`max e s` is not before the UTC instant of local 00:00:00 of the reference
instant's local day and the start is not after the UTC instant of local
23:59:59 of that day; at offset 0 (with reference 2023-11-14T22:13:20Z),
[today 23:00, today 23:30] overlaps, [yesterday 23:00, yesterday 23:59]
does not, and [today 23:30, tomorrow 00:30] overlaps. -/
theorem claim_C4 :
    (∀ s e ref ofs : Int, spansToday s e ref ofs = true ↔
      (localDayStartUTC ref ofs ≤ max e s ∧ s ≤ localDayEndUTC ref ofs))
    ∧ spansToday 1700002800 1700004600 1700000000 0 = true
    ∧ spansToday 1699916400 1699919940 1700000000 0 = false
    ∧ spansToday 1700004600 1700008200 1700000000 0 = true :=
  ⟨spansToday_iff, by decide, by decide, by decide⟩

theorem flushLogical_emit {ofs now : Int} {st st' : PState} {r : CalItem}
    {ln : List Char} (h : flushLogical ofs now st ln = (st', some r)) :
    r = mkRow ofs st.cur ∧ st.inAlarm = false ∧ st.inEvent = true
      ∧ st.cancelled = false ∧ 0 < st.cur.start ∧ st.cur.summary ≠ []
      ∧ spansToday st.cur.start st.cur.end_ now ofs = true := by
  unfold flushLogical at h
  by_cases h1 : ("BEGIN:VALARM".toList).isPrefixOf ln = true
  · rw [if_pos h1] at h
    exact absurd h (by simp)
  rw [if_neg h1] at h
  by_cases h2 : ("END:VALARM".toList).isPrefixOf ln = true
  · rw [if_pos h2] at h
    exact absurd h (by simp)
  rw [if_neg h2] at h
  by_cases h3 : st.inAlarm = true
  · rw [if_pos h3] at h
    exact absurd h (by simp)
  rw [if_neg h3] at h
  by_cases h4 : ln = "BEGIN:VEVENT".toList
  · rw [if_pos h4] at h
    exact absurd h (by simp)
  rw [if_neg h4] at h
  by_cases h5 : ln = "END:VEVENT".toList
  · rw [if_pos h5] at h
    by_cases h6 : (st.inEvent && !st.cancelled && decide (0 < st.cur.start)
        && !st.cur.summary.isEmpty
        && spansToday st.cur.start st.cur.end_ now ofs) = true
    · rw [if_pos h6] at h
      simp only [Prod.mk.injEq, Option.some.injEq] at h
      simp only [Bool.and_eq_true, Bool.not_eq_true', decide_eq_true_eq] at h6
      refine ⟨h.2.symm, by simpa using h3, h6.1.1.1.1, h6.1.1.1.2, h6.1.1.2,
        ?_, h6.2⟩
      intro hnil
      have hs := h6.1.2
      rw [hnil] at hs
      simp at hs
    · rw [if_neg h6] at h
      exact absurd h (by simp)
  rw [if_neg h5] at h
  by_cases h7 : (!st.inEvent) = true
  · rw [if_pos h7] at h
    exact absurd h (by simp)
  rw [if_neg h7] at h
  by_cases h8 : ("DTSTART".toList).isPrefixOf ln = true
  · rw [if_pos h8] at h
    exact absurd h (by simp)
  rw [if_neg h8] at h
  by_cases h9 : ("DTEND".toList).isPrefixOf ln = true
  · rw [if_pos h9] at h
    exact absurd h (by simp)
  rw [if_neg h9] at h
  by_cases h10 : ("STATUS:".toList).isPrefixOf ln = true
  · rw [if_pos h10] at h
    exact absurd h (by simp)
  rw [if_neg h10] at h
  by_cases h11 : ("SUMMARY:".toList).isPrefixOf ln = true
  · rw [if_pos h11] at h
    exact absurd h (by simp)
  rw [if_neg h11] at h
  by_cases h12 : ("LOCATION:".toList).isPrefixOf ln = true
  · rw [if_pos h12] at h
    exact absurd h (by simp)
  rw [if_neg h12] at h
  exact absurd h (by simp)

theorem fmtHHMM_shape (t ofs : Int) (h : 0 < t) :
    ∃ hh mm : Int, 0 ≤ hh ∧ hh < 24 ∧ 0 ≤ mm ∧ mm < 60 ∧
      fmtHHMM_local_fromUTC t ofs = pad2 hh ++ ':' :: pad2 mm := by
  have h0 : 0 ≤ (t + ofs) % 86400 := Int.emod_nonneg _ (by norm_num)
  have h1 : (t + ofs) % 86400 < 86400 := Int.emod_lt_of_pos _ (by norm_num)
  refine ⟨((t + ofs) % 86400) / 3600, (((t + ofs) % 86400) % 3600) / 60,
    by omega, by omega, by omega, by omega, ?_⟩
  rw [fmtHHMM_local_fromUTC, if_neg (not_le.mpr h)]
  rfl

/-- C9: whenever a row is emitted for an event whose end is unset or not
after its start, the effective end equals the start, so the formatted time
range carries the same "HH:MM" on both sides of the dash; concretely, a
14:30 UTC event with no end at local offset +2 hours renders "16:30-16:30".
-/
theorem claim_C9 :
    (∀ (ofs now : Int) (st st' : PState) (r : CalItem) (ln : List Char),
       st.cur.end_ ≤ st.cur.start →
       flushLogical ofs now st ln = (st', some r) →
       r.time = fmtHHMM_local_fromUTC st.cur.start ofs
         ++ '-' :: fmtHHMM_local_fromUTC st.cur.start ofs)
    ∧ (runAll 7200 1699972200 {} (readLogicalLines
        ("BEGIN:VEVENT\nDTSTART:20231114T143000Z\nSUMMARY:X\nEND:VEVENT\n".toList))).map
          CalItem.time
      = ["16:30-16:30".toList] := by
  constructor
  · intro ofs now st st' r ln hend h
    have hr := (flushLogical_emit h).1
    rw [hr]
    unfold mkRow
    simp only [if_neg (not_lt.mpr hend)]
  · decide

theorem claim_C9_witness :
    (CalItem.mk ['X'] ("16:30-16:30".toList)).time
      = fmtHHMM_local_fromUTC 1699972200 7200
        ++ '-' :: fmtHHMM_local_fromUTC 1699972200 7200 :=
  claim_C9.1 7200 1699972200
    { inEvent := true, inAlarm := false, cancelled := false,
      cur := { start := 1699972200, end_ := 0, summary := ['X'],
               location := [], cancelled := false } }
    { inEvent := false, inAlarm := false, cancelled := false,
      cur := { start := 1699972200, end_ := 0, summary := ['X'],
               location := [], cancelled := false } }
    (CalItem.mk ['X'] ("16:30-16:30".toList))
    ("END:VEVENT".toList) (by decide) (by decide)

theorem ite_take39 (l : List Char) :
    (if 40 ≤ l.length then l.take 39 else l) = l.take 39 := by
  split
  · rfl
  · exact (List.take_of_length_le (by omega)).symm

theorem runCapped_append (ofs now maxn : Int) :
    ∀ (pre suf : List (List Char)) (st : PState) (stop : Bool) (filled : Int),
      ∃ extra, runCapped ofs now maxn st stop filled (pre ++ suf)
        = runCapped ofs now maxn st stop filled pre ++ extra := by
  intro pre
  induction pre with
  | nil =>
    intro suf st stop filled
    exact ⟨runCapped ofs now maxn st stop filled suf, by simp [runCapped]⟩
  | cons ln rest ih =>
    intro suf st stop filled
    simp only [List.cons_append, runCapped]
    split
    · exact ih suf st _ filled
    · obtain ⟨extra, hx⟩ := ih suf (flushLogical ofs now st ln).1
        (decide (maxn ≤ filled + if (flushLogical ofs now st ln).2.isSome then 1 else 0)
          || decide (kUiNeededItems ≤ filled + if (flushLogical ofs now st ln).2.isSome then 1 else 0))
        (filled + if (flushLogical ofs now st ln).2.isSome then 1 else 0)
      refine ⟨extra, ?_⟩
      simp only [List.append_eq] at hx ⊢
      rw [hx, List.append_assoc]

/-- C6: every emitted row is fully populated: the title is the unescaped
SUMMARY with the unescaped LOCATION appended parenthesised when present,
truncated to at most 39 characters; the time field is exactly
"HH:MM-HH:MM" (11 characters, zero-padded 24-hour fields); and processing
further lines only appends rows, never rewriting ones already emitted. -/
theorem claim_C6 :
    (∀ (ofs now : Int) (st st' : PState) (r : CalItem) (ln : List Char),
       flushLogical ofs now st ln = (st', some r) →
       (r.title = (icsUnescape st.cur.summary ++
           (if icsUnescape st.cur.location = [] then []
            else ' ' :: '(' :: (icsUnescape st.cur.location ++ [')']))).take 39
        ∧ r.title.length ≤ 39
        ∧ (∃ hh mm hh2 mm2 : Int, 0 ≤ hh ∧ hh < 24 ∧ 0 ≤ mm ∧ mm < 60
            ∧ 0 ≤ hh2 ∧ hh2 < 24 ∧ 0 ≤ mm2 ∧ mm2 < 60
            ∧ r.time = (pad2 hh ++ ':' :: pad2 mm)
                ++ '-' :: (pad2 hh2 ++ ':' :: pad2 mm2))
        ∧ r.time.length = 11))
    ∧ (∀ (ofs now maxn : Int) (pre suf : List (List Char)) (st : PState)
         (stop : Bool) (filled : Int),
        ∃ extra, runCapped ofs now maxn st stop filled (pre ++ suf)
          = runCapped ofs now maxn st stop filled pre ++ extra) := by
  refine ⟨?_, runCapped_append⟩
  intro ofs now st st' r ln h
  obtain ⟨hr, -, -, -, hstart, -, -⟩ := flushLogical_emit h
  have hendpos : 0 < (if st.cur.start < st.cur.end_ then st.cur.end_
      else st.cur.start) := by
    split <;> omega
  obtain ⟨hh, mm, hh0, hh24, mm0, mm60, hfmt⟩ :=
    fmtHHMM_shape st.cur.start ofs hstart
  obtain ⟨hh2, mm2, hh20, hh224, mm20, mm260, hfmt2⟩ :=
    fmtHHMM_shape _ ofs hendpos
  subst hr
  unfold mkRow
  simp only
  refine ⟨?_, ?_, ⟨hh, mm, hh2, mm2, hh0, hh24, mm0, mm60, hh20, hh224,
    mm20, mm260, ?_⟩, ?_⟩
  · rw [ite_take39]
    by_cases hloc : icsUnescape st.cur.location = []
    · simp [hloc, List.isEmpty_iff.mpr hloc]
    · rw [if_neg hloc,
        if_neg (by simpa [List.isEmpty_iff] using hloc)]
  · rw [ite_take39, List.length_take]
    exact min_le_left _ _
  · rw [hfmt, hfmt2]
  · rw [hfmt, hfmt2]
    simp [pad2]

theorem claim_C6_witness :
    (CalItem.mk ("Standup (Room 1)".toList) ("10:00-11:00".toList)).title.length
      ≤ 39 :=
  (claim_C6.1 0 1700000000
    { inEvent := true, inAlarm := false, cancelled := false,
      cur := { start := 1699956000, end_ := 1699959600,
               summary := "Standup".toList, location := "Room 1".toList,
               cancelled := false } }
    { inEvent := false, inAlarm := false, cancelled := false,
      cur := { start := 1699956000, end_ := 1699959600,
               summary := "Standup".toList, location := "Room 1".toList,
               cancelled := false } }
    (CalItem.mk ("Standup (Room 1)".toList) ("10:00-11:00".toList))
    ("END:VEVENT".toList) (by decide)).2.1

theorem runCapped_stop (ofs now maxn : Int) :
    ∀ (lines : List (List Char)) (st : PState) (filled : Int),
      runCapped ofs now maxn st true filled lines = [] := by
  intro lines
  induction lines with
  | nil => intro st filled; rfl
  | cons ln rest ih =>
    intro st filled
    simp only [runCapped, if_pos rfl]
    exact ih st filled

theorem runCapped_take (ofs now maxn : Int) :
    ∀ (lines : List (List Char)) (st : PState) (filled : Int),
      filled < maxn → filled < kUiNeededItems →
      runCapped ofs now maxn st false filled lines
        = (runAll ofs now st lines).take
            (min maxn kUiNeededItems - filled).toNat := by
  intro lines
  induction lines with
  | nil => intro st filled h1 h2; simp [runCapped, runAll]
  | cons ln rest ih =>
    intro st filled h1 h2
    simp only [runCapped, runAll]
    rw [if_neg (by simp)]
    cases hp : (flushLogical ofs now st ln).2 with
    | none =>
      simp only [hp, Option.isSome_none, Bool.false_eq_true, if_false,
        add_zero, Option.toList_none, List.nil_append]
      have hs : (decide (maxn ≤ filled) || decide (kUiNeededItems ≤ filled))
          = false := by
        simp only [Bool.or_eq_false_iff, decide_eq_false_iff_not, not_le]
        exact ⟨h1, h2⟩
      rw [hs]
      exact ih _ filled h1 h2
    | some r =>
      simp only [hp, Option.isSome_some, if_pos rfl, if_true, ite_true,
        Option.toList_some, List.cons_append, List.nil_append]
      by_cases hstop : maxn ≤ filled + 1 ∨ kUiNeededItems ≤ filled + 1
      · have hs : (decide (maxn ≤ filled + 1)
            || decide (kUiNeededItems ≤ filled + 1)) = true := by
          rcases hstop with h | h <;> simp [h]
        rw [hs, runCapped_stop]
        have hn : (min maxn kUiNeededItems - filled).toNat = 1 := by
          simp only [kUiNeededItems] at *
          omega
        rw [hn]
        rfl
      · push_neg at hstop
        have hs : (decide (maxn ≤ filled + 1)
            || decide (kUiNeededItems ≤ filled + 1)) = false := by
          simp only [Bool.or_eq_false_iff, decide_eq_false_iff_not, not_le]
          exact hstop
        rw [hs, ih _ (filled + 1) hstop.1 hstop.2]
        have hn : (min maxn kUiNeededItems - filled).toNat
            = (min maxn kUiNeededItems - (filled + 1)).toNat + 1 := by
          simp only [kUiNeededItems] at *
          omega
        rw [hn]
        rfl

/-- C5: for capacity `maxn ≥ 1`, the rows written are exactly the first
`min(maxn, kUiNeededItems)` qualifying events of the document in parse
order (`runAll` enumerates every qualifying event in parse order, and the
produced list is its `take`); once the loop has stopped early, no further
line is processed (a stopped run emits nothing). -/
theorem claim_C5 :
    (∀ (ofs now maxn : Int) (lines : List (List Char)), 1 ≤ maxn →
       runCapped ofs now maxn {} false 0 lines
         = (runAll ofs now {} lines).take (min maxn kUiNeededItems).toNat)
    ∧ (∀ (ofs now maxn : Int) (st : PState) (filled : Int)
         (lines : List (List Char)),
        runCapped ofs now maxn st true filled lines = []) := by
  constructor
  · intro ofs now maxn lines h
    have h6 : (0 : Int) < kUiNeededItems := by norm_num [kUiNeededItems]
    have := runCapped_take ofs now maxn lines {} 0 (by omega) h6
    simpa using this
  · intro ofs now maxn st filled lines
    exact runCapped_stop ofs now maxn lines st filled

def docC5 : List (List Char) :=
  readLogicalLines
    (("BEGIN:VEVENT\nDTSTART:20231114T080000Z\nSUMMARY:E1\nEND:VEVENT\n"
      ++ "BEGIN:VEVENT\nDTSTART:20231114T090000Z\nSUMMARY:E2\nEND:VEVENT\n"
      ++ "BEGIN:VEVENT\nDTSTART:20231114T100000Z\nSUMMARY:E3\nEND:VEVENT\n"
      ++ "BEGIN:VEVENT\nDTSTART:20231114T110000Z\nSUMMARY:E4\nEND:VEVENT\n"
      ++ "BEGIN:VEVENT\nDTSTART:20231114T120000Z\nSUMMARY:E5\nEND:VEVENT\n").toList)

set_option maxRecDepth 20000 in
theorem claim_C5_witness :
    runCapped 0 1700000000 3 {} false 0 docC5
      = (runAll 0 1700000000 {} docC5).take (min 3 kUiNeededItems).toNat
    ∧ (runCapped 0 1700000000 3 {} false 0 docC5).map CalItem.title
      = ["E1".toList, "E2".toList, "E3".toList]
    ∧ (runAll 0 1700000000 {} docC5).length = 5 :=
  ⟨claim_C5.1 0 1700000000 3 docC5 (by decide), by decide, by decide⟩

theorem fetchAndParse_ok {tr : Bool → Option HttpResp} {u : Bool}
    {resp : HttpResp} (ofs now maxn : Int) (ht : tr u = some resp)
    (hc : resp.code = 200 ∨ resp.code = 206) :
    (fetchAndParse tr ofs now maxn u).1
      = ((fetchAndParse tr ofs now maxn u).2.length : Int)
    ∧ 0 ≤ (fetchAndParse tr ofs now maxn u).1 := by
  unfold fetchAndParse
  rw [ht]
  simp [if_pos hc]

theorem fetchAndParse_fail {tr : Bool → Option HttpResp} {u : Bool}
    (ofs now maxn : Int)
    (h : tr u = none ∨ ∃ resp, tr u = some resp
        ∧ ¬(resp.code = 200 ∨ resp.code = 206)) :
    fetchAndParse tr ofs now maxn u = (-1, []) := by
  unfold fetchAndParse
  rcases h with h | ⟨resp, ht, hc⟩
  · rw [h]
  · rw [ht]
    simp only [if_neg hc]

/-- C1: when the tail byte-range request completes with HTTP 200 or 206 but
yields zero qualifying rows, `readToday` issues exactly one additional
unranged full-document request and returns the row count written by that
second parse; when the tail parse yields at least one qualifying row, no
second request is issued and the tail count is returned. -/
theorem claim_C1 (tr : Bool → Option HttpResp) (ofs now maxn : Int)
    (hm : 1 ≤ maxn) (resp : HttpResp) (ht : tr true = some resp)
    (hc : resp.code = 200 ∨ resp.code = 206) :
    ((fetchAndParse tr ofs now maxn true).2 = [] →
       readToday tr ofs now true true maxn
         = (((fetchAndParse tr ofs now maxn false).2.length : Int),
            [true, false]))
    ∧ ((fetchAndParse tr ofs now maxn true).2 ≠ [] →
       readToday tr ofs now true true maxn
         = (((fetchAndParse tr ofs now maxn true).2.length : Int), [true])) := by
  obtain ⟨hfp1, hfp2⟩ := fetchAndParse_ok ofs now maxn ht hc
  constructor
  · intro hnil
    unfold readToday
    rw [if_neg (by rintro (h | h | h)
                   · omega
                   · exact h rfl
                   · exact h rfl)]
    simp only
    rw [if_pos hfp2]
    rw [hfp1, hnil]
    simp only [List.length_nil, Nat.cast_zero, lt_self_iff_false, if_false]
    by_cases h2 : ∃ r2, tr false = some r2 ∧ (r2.code = 200 ∨ r2.code = 206)
    · obtain ⟨r2, ht2, hc2⟩ := h2
      obtain ⟨hfp1', hfp2'⟩ := fetchAndParse_ok ofs now maxn ht2 hc2
      rw [hfp1']
      rw [if_neg (by omega)]
    · have hfail : fetchAndParse tr ofs now maxn false = (-1, []) := by
        apply fetchAndParse_fail
        cases htf : tr false with
        | none => exact Or.inl rfl
        | some r2 =>
          refine Or.inr ⟨r2, rfl, fun hcc => h2 ⟨r2, htf, hcc⟩⟩
      rw [hfail]
      simp only [List.length_nil, Nat.cast_zero]
      rfl
  · intro hne
    have hpos : 0 < ((fetchAndParse tr ofs now maxn true).2.length : Int) := by
      have := List.length_pos.mpr hne
      omega
    unfold readToday
    rw [if_neg (by rintro (h | h | h)
                   · omega
                   · exact h rfl
                   · exact h rfl)]
    simp only
    rw [if_pos hfp2, hfp1]
    rw [if_pos hpos]

def trC1 : Bool → Option HttpResp :=
  fun u => if u then some ⟨206, []⟩
    else some ⟨200,
      ("BEGIN:VEVENT\nDTSTART:20231114T100000Z\nSUMMARY:S\nEND:VEVENT\n".toList)⟩

set_option maxRecDepth 20000 in
theorem claim_C1_witness :
    readToday trC1 0 1700000000 true true 6
      = (((fetchAndParse trC1 0 1700000000 6 false).2.length : Int),
         [true, false])
    ∧ (fetchAndParse trC1 0 1700000000 6 false).2.length = 1 :=
  ⟨(claim_C1 trC1 0 1700000000 6 (by decide) ⟨206, []⟩ rfl
      (Or.inr rfl)).1 (by decide),
   by decide⟩

def trC2 : Bool → Option HttpResp :=
  fun u => if u then some ⟨500, []⟩
    else some ⟨200,
      ("BEGIN:VEVENT\nDTSTART:20231114T100000Z\nSUMMARY:S\nEND:VEVENT\n".toList)⟩

/-- C2 counterexample: with a transport whose tail request fails at the
transport level (HTTP 500) while a full-document request would produce a
qualifying row, `readToday` issues only the tail attempt (request log
`[true]`), never the full-document fallback, and returns 0 — refuting the
claim that a tail transport failure triggers the fallback request. -/
theorem claim_C2_counterexample :
    readToday trC2 0 1700000000 true true 6 = (0, [true])
    ∧ 0 < (fetchAndParse trC2 0 1700000000 6 false).2.length := by
  constructor
  · decide
  · decide

/-- C2 (amended): a tail request that fails at the transport level
(connection failure or a status other than 200/206) makes `readToday`
return zero rows without issuing any fallback request; the full-document
fallback is issued only after a successful tail transfer with zero
qualifying rows, and when that fallback itself fails the call still returns
zero rows rather than a fatal error. -/
theorem claim_C2_amended (tr : Bool → Option HttpResp) (ofs now maxn : Int)
    (hm : 1 ≤ maxn) :
    ((tr true = none ∨ ∃ r, tr true = some r
        ∧ ¬(r.code = 200 ∨ r.code = 206)) →
      readToday tr ofs now true true maxn = (0, [true]))
    ∧ (∀ r, tr true = some r → (r.code = 200 ∨ r.code = 206) →
        (fetchAndParse tr ofs now maxn true).2 = [] →
        (tr false = none ∨ ∃ r2, tr false = some r2
            ∧ ¬(r2.code = 200 ∨ r2.code = 206)) →
        readToday tr ofs now true true maxn = (0, [true, false])) := by
  constructor
  · intro hfail
    have hf := fetchAndParse_fail ofs now maxn hfail
    unfold readToday
    rw [if_neg (by rintro (h | h | h)
                   · omega
                   · exact h rfl
                   · exact h rfl)]
    simp only
    rw [hf]
    norm_num
  · intro r ht hc hnil hfail2
    obtain ⟨hfp1, hfp2⟩ := fetchAndParse_ok ofs now maxn ht hc
    have hf2 := fetchAndParse_fail ofs now maxn hfail2
    unfold readToday
    rw [if_neg (by rintro (h | h | h)
                   · omega
                   · exact h rfl
                   · exact h rfl)]
    simp only
    rw [if_pos hfp2, hfp1, hnil]
    simp only [List.length_nil, Nat.cast_zero, lt_self_iff_false, if_false]
    rw [hf2]
    norm_num

def trC2b : Bool → Option HttpResp :=
  fun _ => none

theorem claim_C2_amended_witness :
    readToday trC2b 0 1700000000 true true 6 = (0, [true]) :=
  (claim_C2_amended trC2b 0 1700000000 6 (by decide)).1 (Or.inl rfl)

theorem findIdx_append_first {p : Char → Bool} (pre : List Char) (a : Char)
    (rest : List Char) (hpre : ∀ c ∈ pre, p c = false) (ha : p a = true) :
    (pre ++ a :: rest).findIdx p = pre.length := by
  induction pre with
  | nil => simp [List.findIdx_cons, ha]
  | cons c t ih =>
    simp only [List.cons_append, List.findIdx_cons,
      hpre c (List.mem_cons_self c t), cond_false, List.length_cons]
    rw [ih (fun x hx => hpre x (List.mem_cons_of_mem c hx))]

theorem dropWhile_eq_self_of (p : Char → Bool) (s : List Char)
    (h : ∀ c ∈ s, p c = false) : s.dropWhile p = s := by
  cases s with
  | nil => rfl
  | cons c t =>
    rw [List.dropWhile_cons, h c (List.mem_cons_self c t)]
    simp

theorem trimList_eq_self {s : List Char}
    (h : ∀ c ∈ s, isSpaceChar c = false) : trimList s = s := by
  unfold trimList
  rw [dropWhile_eq_self_of _ _ h,
    dropWhile_eq_self_of _ _ (fun c hc => h c (List.mem_reverse.mp hc)),
    List.reverse_reverse]

theorem isDigitChar_ne {c a : Char} (h : isDigitChar c = true)
    (ha : ('9' : Char) < a ∨ a < '0') : c ≠ a := by
  simp only [isDigitChar, Bool.and_eq_true, decide_eq_true_eq] at h
  rintro rfl
  rcases ha with ha | ha
  · exact absurd (lt_of_le_of_lt h.2 ha) (lt_irrefl _)
  · exact absurd (lt_of_lt_of_le ha h.1) (lt_irrefl _)

theorem isDigitChar_not_space {c : Char} (h : isDigitChar c = true) :
    isSpaceChar c = false := by
  simp only [isSpaceChar, Bool.or_eq_false_iff, decide_eq_false_iff_not]
  exact ⟨⟨⟨⟨⟨isDigitChar_ne h (by decide), isDigitChar_ne h (by decide)⟩,
    isDigitChar_ne h (by decide)⟩, isDigitChar_ne h (by decide)⟩,
    isDigitChar_ne h (by decide)⟩, isDigitChar_ne h (by decide)⟩

theorem parseICSTime_timed_invalid (ofs : Int) (pre d8 t6 zsuf : List Char)
    (hz : zsuf = ['Z'] ∨ zsuf = [])
    (hpre : ':' ∉ pre)
    (hd8 : d8.length = 8) (hd : ∀ c ∈ d8, isDigitChar c = true)
    (ht6 : t6.length = 6) (ht : ∀ c ∈ t6, isDigitChar c = true)
    (hviol : strToInt ((d8.drop 4).take 2) < 1
      ∨ 12 < strToInt ((d8.drop 4).take 2)
      ∨ strToInt ((d8.drop 6).take 2) < 1
      ∨ 31 < strToInt ((d8.drop 6).take 2)
      ∨ 23 < strToInt (t6.take 2)
      ∨ 59 < strToInt ((t6.drop 2).take 2)
      ∨ 60 < strToInt ((t6.drop 4).take 2)) :
    parseICSTime ofs (pre ++ ':' :: (d8 ++ 'T' :: t6 ++ zsuf)) = none := by
  have hcolon : (pre ++ ':' :: (d8 ++ 'T' :: t6 ++ zsuf)).findIdx (· = ':')
      = pre.length :=
    findIdx_append_first pre ':' _
      (fun c hc => decide_eq_false (fun h => hpre (h ▸ hc))) (by simp)
  have hlen : pre.length < (pre ++ ':' :: (d8 ++ 'T' :: t6 ++ zsuf)).length := by
    simp [List.length_append]
  have hdrop : (pre ++ ':' :: (d8 ++ 'T' :: t6 ++ zsuf)).drop (pre.length + 1)
      = d8 ++ 'T' :: t6 ++ zsuf := by
    rw [show pre ++ ':' :: (d8 ++ 'T' :: t6 ++ zsuf)
        = (pre ++ [':']) ++ (d8 ++ 'T' :: t6 ++ zsuf) from by simp]
    rw [List.drop_left' (by simp)]
  have hbody : ∀ c ∈ (d8 ++ 'T' :: t6 ++ zsuf), isSpaceChar c = false := by
    intro c hc
    rcases List.mem_append.mp hc with h1 | h6
    · rcases List.mem_append.mp h1 with h2 | h3
      · exact isDigitChar_not_space (hd c h2)
      · rcases List.mem_cons.mp h3 with h4 | h5
        · subst h4; rfl
        · exact isDigitChar_not_space (ht c h5)
    · rcases hz with rfl | rfl
      · simp at h6
        subst h6; rfl
      · simp at h6
  have htrim : trimList (d8 ++ 'T' :: t6 ++ zsuf) = d8 ++ 'T' :: t6 ++ zsuf :=
    trimList_eq_self hbody
  have htpos : (d8 ++ 'T' :: t6).findIdx (· = 'T') = 8 := by
    rw [show d8 ++ 'T' :: t6 = d8 ++ 'T' :: t6 from rfl]
    rw [findIdx_append_first d8 'T' t6
      (fun c hc => decide_eq_false (isDigitChar_ne (hd c hc) (by decide)))
      (by simp), hd8]
  have hvlen : (d8 ++ 'T' :: t6).length = 15 := by
    simp [List.length_append, hd8, ht6]
  have htake8 : (d8 ++ 'T' :: t6).take 8 = d8 := by
    rw [← hd8, List.take_left]
  have hdrop9 : (d8 ++ 'T' :: t6).drop 9 = t6 := by
    rw [show d8 ++ 'T' :: t6 = (d8 ++ ['T']) ++ t6 from by simp]
    rw [List.drop_left' (by simp [hd8])]
  have hfilter : t6.filter isDigitChar = t6 := List.filter_eq_self.mpr ht
  have htd : (t6 ++ List.replicate (6 - t6.length) '0').take 6 = t6 := by
    rw [ht6]
    simp only [Nat.sub_self, List.replicate_zero, List.append_nil]
    exact List.take_of_length_le (by omega)
  rcases hz with rfl | rfl
  · have hlast : (d8 ++ 'T' :: t6 ++ ['Z']).getLast? = some 'Z' :=
      List.getLast?_concat _
    have hdl : (d8 ++ 'T' :: t6 ++ ['Z']).dropLast = d8 ++ 'T' :: t6 :=
      List.dropLast_concat ..
    simp only [parseICSTime, hcolon, hdrop, htrim, hlast, if_pos hlen, hdl,
      show (decide True || decide (some 'Z' = some 'z')) = true from rfl,
      eq_self_iff_true, if_true, htpos, htake8, hdrop9, hfilter, htd, hvlen]
    rw [if_pos (by norm_num), if_neg (by norm_num), if_pos hviol]
  · simp only [List.append_nil] at hcolon hlen hdrop htrim ⊢
    have ht6ne : t6 ≠ [] := by
      intro h
      rw [h] at ht6
      simp at ht6
    have hlast : (d8 ++ 'T' :: t6).getLast? = some (t6.getLast ht6ne) := by
      rw [List.getLast?_append, show ('T' :: t6) = ['T'] ++ t6 from rfl,
        List.getLast?_append, List.getLast?_eq_getLast t6 ht6ne]
      rfl
    have hzZ : t6.getLast ht6ne ≠ 'Z' :=
      isDigitChar_ne (ht _ (List.getLast_mem ht6ne)) (by decide)
    have hzz : t6.getLast ht6ne ≠ 'z' :=
      isDigitChar_ne (ht _ (List.getLast_mem ht6ne)) (by decide)
    have hzulu : (decide ((d8 ++ 'T' :: t6).getLast? = some 'Z')
        || decide ((d8 ++ 'T' :: t6).getLast? = some 'z')) = false := by
      rw [hlast]
      simp [hzZ, hzz]
    simp only [parseICSTime, hcolon, if_pos hlen, hdrop, htrim, hzulu,
      Bool.false_eq_true, if_false, htpos, htake8, hdrop9, hfilter, htd,
      hvlen]
    rw [if_pos (by norm_num), if_neg (by norm_num), if_pos hviol]

theorem flushLogical_dtstart_none (ofs now : Int) (st : PState)
    (ln : List Char) (ha : st.inAlarm = false) (he : st.inEvent = true)
    (hpref : ("DTSTART".toList).isPrefixOf ln = true)
    (hnone : parseICSTime ofs ln = none) :
    flushLogical ofs now st ln = (st, none) := by
  obtain ⟨ie, ia, ca, cu⟩ := st
  simp only at ha he
  subst ha he
  obtain ⟨tail, rfl⟩ :=
    List.isPrefixOf_iff_prefix.mp hpref
  unfold flushLogical
  rw [show ("BEGIN:VALARM".toList).isPrefixOf ("DTSTART".toList ++ tail)
      = false from rfl]
  rw [show ("END:VALARM".toList).isPrefixOf ("DTSTART".toList ++ tail)
      = false from rfl]
  simp only [Bool.false_eq_true, if_false]
  rw [if_neg (by simp), if_neg (by simp)]
  simp only [Bool.not_true, Bool.false_eq_true, if_false]
  rw [if_pos hpref]
  rw [hnone]
  simp only [Option.getD_none]

theorem flushLogical_begin_vevent (ofs now : Int) (st : PState)
    (ha : st.inAlarm = false) :
    flushLogical ofs now st ("BEGIN:VEVENT".toList)
      = ({ st with inEvent := true, cancelled := false, cur := {} }, none) := by
  unfold flushLogical
  rw [show ("BEGIN:VALARM".toList).isPrefixOf ("BEGIN:VEVENT".toList)
      = false from rfl]
  rw [show ("END:VALARM".toList).isPrefixOf ("BEGIN:VEVENT".toList)
      = false from rfl]
  rw [ha]
  simp only [Bool.false_eq_true, if_false, eq_self_iff_true, if_true]

def docC3 : List Char :=
  ("BEGIN:VEVENT\nDTSTART:20231301T999999Z\nSUMMARY:Bad\nEND:VEVENT\n"
    ++ "BEGIN:VEVENT\nDTSTART:20231114T100000Z\nSUMMARY:Good\nEND:VEVENT\n").toList

/-- C3 counterexample: in the all-day form the source performs no range
validation at all — `DTSTART;VALUE=DATE:20231301` (month 13) parses
successfully, returns true, and stores the `mktime`-normalised instant
2024-01-01 (epoch 1704067200), refuting the claim for the all-day form. -/
theorem claim_C3_counterexample :
    parseICSTime 0 ("DTSTART;VALUE=DATE:20231301".toList) = some 1704067200
    ∧ parseICSTimeOk 0 ("DTSTART;VALUE=DATE:20231301".toList) = true := by
  constructor
  · decide
  · decide

set_option maxRecDepth 20000 in
/-- C3 (amended): in the two timed forms (UTC stamp, naive local stamp) an
out-of-range month, day, hour, minute or second makes `parseICSTime` return
before writing the field; a DTSTART line whose parse failed this way leaves
the candidate event and state untouched; `BEGIN:VEVENT` resets the
candidate independently of any earlier garbage, so subsequent events are
unaffected; concretely, a document whose first VEVENT carries
`DTSTART:20231301T999999Z` is discarded while its second, valid VEVENT
still produces its row.  (The all-day form performs no range validation;
see the counterexample.) -/
theorem claim_C3 :
    (∀ (ofs : Int) (pre d8 t6 zsuf : List Char),
       (zsuf = ['Z'] ∨ zsuf = []) → ':' ∉ pre →
       d8.length = 8 → (∀ c ∈ d8, isDigitChar c = true) →
       t6.length = 6 → (∀ c ∈ t6, isDigitChar c = true) →
       (strToInt ((d8.drop 4).take 2) < 1
         ∨ 12 < strToInt ((d8.drop 4).take 2)
         ∨ strToInt ((d8.drop 6).take 2) < 1
         ∨ 31 < strToInt ((d8.drop 6).take 2)
         ∨ 23 < strToInt (t6.take 2)
         ∨ 59 < strToInt ((t6.drop 2).take 2)
         ∨ 60 < strToInt ((t6.drop 4).take 2)) →
       parseICSTime ofs (pre ++ ':' :: (d8 ++ 'T' :: t6 ++ zsuf)) = none
       ∧ parseICSTimeOk ofs (pre ++ ':' :: (d8 ++ 'T' :: t6 ++ zsuf)) = false)
    ∧ (∀ (ofs now : Int) (st : PState) (ln : List Char),
        st.inAlarm = false → st.inEvent = true →
        ("DTSTART".toList).isPrefixOf ln = true →
        parseICSTime ofs ln = none →
        flushLogical ofs now st ln = (st, none))
    ∧ (∀ (ofs now : Int) (st : PState), st.inAlarm = false →
        flushLogical ofs now st ("BEGIN:VEVENT".toList)
          = ({ st with inEvent := true, cancelled := false, cur := {} }, none))
    ∧ (runAll 0 1700000000 {} (readLogicalLines docC3)).map CalItem.title
        = ["Good".toList] := by
  refine ⟨?_, flushLogical_dtstart_none, flushLogical_begin_vevent, ?_⟩
  · intro ofs pre d8 t6 zsuf hz hpre hd8 hd ht6 ht hviol
    have hnone := parseICSTime_timed_invalid ofs pre d8 t6 zsuf hz hpre
      hd8 hd ht6 ht hviol
    refine ⟨hnone, ?_⟩
    unfold parseICSTimeOk
    rw [hnone]
  · decide

theorem claim_C3_witness :
    parseICSTime 0 ("DTSTART".toList ++ ':' :: ("20231301".toList
        ++ 'T' :: "999999".toList ++ ['Z'])) = none
    ∧ parseICSTimeOk 0 ("DTSTART".toList ++ ':' :: ("20231301".toList
        ++ 'T' :: "999999".toList ++ ['Z'])) = false :=
  claim_C3.1 0 ("DTSTART".toList) ("20231301".toList) ("999999".toList)
    ['Z'] (Or.inl rfl) (by decide) (by decide) (by decide) (by decide)
    (by decide) (by decide)

theorem codePhysLines_nil : ∀ fuel, codePhysLines fuel [] = [] := by
  intro fuel
  cases fuel <;> rfl

theorem mem_of_getLast?_eq {l : List Char} {a : Char}
    (h : l.getLast? = some a) : a ∈ l := by
  obtain ⟨hne, rfl⟩ := List.mem_getLast?_eq_getLast (by rw [h]; rfl)
  exact List.getLast_mem hne

theorem dropWhile_head_not {p : Char → Bool} (s : List Char) {c : Char}
    {tl : List Char} (h : s.dropWhile p = c :: tl) : p c = false := by
  induction s with
  | nil => simp at h
  | cons a t ih =>
    rw [List.dropWhile_cons] at h
    split at h
    · exact ih h
    · rename_i hp
      injection h with h1 h2
      subst h1
      simpa using hp

theorem mem_nl_of_ne (s : List Char) (x : Char)
    (hx : x ∈ s.takeWhile (· ≠ '\n')) : ¬((x == '\n') = true) := by
  have := List.mem_takeWhile_imp hx
  simp only [decide_eq_true_eq] at this
  simpa using this

theorem specPhysLines_no_nl {s : List Char} (hne : s ≠ [])
    (hnl : '\n' ∉ s) : specPhysLines s = [s] := by
  unfold specPhysLines
  rw [if_neg hne, if_neg (fun h => hnl (mem_of_getLast?_eq h))]
  exact List.splitOnP_eq_single (· == '\n') s
    (fun x hx hpx => hnl (((by simpa using hpx) : x = '\n') ▸ hx))

theorem specPhysLines_term {pre : List Char} (hnl : '\n' ∉ pre) :
    specPhysLines (pre ++ ['\n']) = [pre] := by
  unfold specPhysLines
  rw [if_neg (by simp), if_pos (by simp)]
  show ((pre ++ '\n' :: []).splitOnP (· == '\n')).dropLast = [pre]
  rw [List.splitOnP_first (· == '\n') pre
    (fun x hx hpx => hnl (((by simpa using hpx) : x = '\n') ▸ hx)) '\n'
    (by simp)]
  rfl

theorem specPhysLines_cons {pre rest : List Char} (hnl : '\n' ∉ pre)
    (hrest : rest ≠ []) :
    specPhysLines (pre ++ '\n' :: rest) = pre :: specPhysLines rest := by
  have hsp : (pre ++ '\n' :: rest).splitOn '\n' = pre :: rest.splitOn '\n' :=
    List.splitOnP_first (· == '\n') pre
      (fun x hx hpx => hnl (((by simpa using hpx) : x = '\n') ▸ hx)) '\n'
      (by simp) rest
  have hlast : (pre ++ '\n' :: rest).getLast? = rest.getLast? := by
    rw [List.getLast?_append, show ('\n' :: rest) = ['\n'] ++ rest from rfl,
      List.getLast?_append, List.getLast?_eq_getLast_of_ne_nil hrest]
    rfl
  by_cases hl : rest.getLast? = some '\n'
  · unfold specPhysLines
    rw [if_neg (by simp), if_neg hrest, if_pos (hlast.trans hl), if_pos hl]
    rw [hsp]
    exact List.dropLast_cons_of_ne_nil (List.splitOnP_ne_nil _ _)
  · unfold specPhysLines
    rw [if_neg (by simp), if_neg hrest,
      if_neg (fun h => hl (hlast.symm.trans h)), if_neg hl]
    exact hsp

theorem takeWhile_no_nl (s : List Char) : '\n' ∉ s.takeWhile (· ≠ '\n') := by
  intro hm
  have := List.mem_takeWhile_imp hm
  simp at this

theorem stream_decomp_nil {s : List Char}
    (hdw : s.dropWhile (· ≠ '\n') = []) : s = s.takeWhile (· ≠ '\n') := by
  conv_lhs => rw [← List.takeWhile_append_dropWhile (p := (· ≠ '\n')) (l := s)]
  rw [hdw, List.append_nil]

theorem stream_decomp_cons {s : List Char} {tl : List Char}
    (hdw : s.dropWhile (· ≠ '\n') = '\n' :: tl) :
    s = s.takeWhile (· ≠ '\n') ++ '\n' :: tl := by
  conv_lhs => rw [← List.takeWhile_append_dropWhile (p := (· ≠ '\n')) (l := s)]
  rw [hdw]

theorem dropWhile_nl_shape (s : List Char) :
    s.dropWhile (· ≠ '\n') = []
    ∨ ∃ tl, s.dropWhile (· ≠ '\n') = '\n' :: tl := by
  cases hdw : s.dropWhile (· ≠ '\n') with
  | nil => exact Or.inl rfl
  | cons c tl =>
    have hc := dropWhile_head_not s hdw
    have hc2 : c = '\n' := by
      by_contra hcn
      simp [hcn] at hc
    subst hc2
    exact Or.inr ⟨tl, rfl⟩

theorem readPhysLine_eq (s : List Char) (hne : s ≠ [])
    (hfit : (s.takeWhile (· ≠ '\n')).length < kLineBuf - 1)
    (hok : ¬(s.takeWhile (· ≠ '\n') = []
        ∧ (s.dropWhile (· ≠ '\n')).drop 1 = [])) :
    readPhysLine s = some (stripCR (s.takeWhile (· ≠ '\n')),
      (s.dropWhile (· ≠ '\n')).drop 1) := by
  unfold readPhysLine
  rw [if_neg hne]
  simp only
  rw [if_pos hfit, if_neg hok]

theorem getLast?_cons_ne {a : List Char} {l : List (List Char)}
    (h : l ≠ []) : (a :: l).getLast? = l.getLast? := by
  rw [show a :: l = [a] ++ l from rfl, List.getLast?_append,
    List.getLast?_eq_getLast_of_ne_nil h]
  rfl

theorem specPhysLines_ne_nil {s : List Char} (hne : s ≠ []) :
    specPhysLines s ≠ [] := by
  rcases dropWhile_nl_shape s with hdw | ⟨tl, hdw⟩
  · rw [specPhysLines_no_nl hne
      (fun hm => by
        have := List.mem_takeWhile_imp (stream_decomp_nil hdw ▸ hm)
        simp at this)]
    simp
  · have hs := stream_decomp_cons hdw
    cases htl : tl with
    | nil =>
      rw [htl] at hs
      rw [hs, specPhysLines_term (takeWhile_no_nl s)]
      simp
    | cons c t =>
      rw [htl] at hs
      rw [hs, specPhysLines_cons (takeWhile_no_nl s) (by simp)]
      simp

theorem codePhysLines_eq_spec :
    ∀ (fuel : Nat) (s : List Char), s.length < fuel →
      (∀ l ∈ specPhysLines s, l.length ≤ 1022) →
      (specPhysLines s).getLast? ≠ some [] →
      codePhysLines fuel s = (specPhysLines s).map stripCR := by
  intro fuel
  induction fuel with
  | zero => intro s h _ _; omega
  | succ f ih =>
    intro s hlen h1 h2
    by_cases hne : s = []
    · subst hne
      rw [codePhysLines_nil]
      unfold specPhysLines
      rw [if_pos rfl]
      rfl
    · rcases dropWhile_nl_shape s with hdw | ⟨tl, hdw⟩
      · -- no newline in s: one final line
        have hnl : '\n' ∉ s := fun hm => by
          have := List.mem_takeWhile_imp (stream_decomp_nil hdw ▸ hm)
          simp at this
        have hspec := specPhysLines_no_nl hne hnl
        have hfit : (s.takeWhile (· ≠ '\n')).length < kLineBuf - 1 := by
          have hmem := h1 s (by rw [hspec]; exact List.mem_singleton.mpr rfl)
          have hle : (s.takeWhile (· ≠ '\n')).length ≤ s.length :=
            (s.takeWhile_sublist (· ≠ '\n')).length_le
          simp only [kLineBuf]
          omega
        have hok : ¬(s.takeWhile (· ≠ '\n') = []
            ∧ (s.dropWhile (· ≠ '\n')).drop 1 = []) := by
          rintro ⟨hp, -⟩
          exact hne (by rw [stream_decomp_nil hdw, hp])
        rw [hspec]
        unfold codePhysLines
        rw [readPhysLine_eq s hne hfit hok]
        simp only [hdw, List.drop_nil, ← stream_decomp_nil hdw,
          codePhysLines_nil]
        rfl
      · -- s = pre ++ '\n' :: tl
        have hs := stream_decomp_cons hdw
        have hrest1 : (s.dropWhile (· ≠ '\n')).drop 1 = tl := by
          rw [hdw]
          rfl
        cases htl : tl with
        | nil =>
          rw [htl] at hs
          have hspec : specPhysLines s = [s.takeWhile (· ≠ '\n')] := by
            conv_lhs => rw [hs]
            exact specPhysLines_term (takeWhile_no_nl s)
          have hprene : s.takeWhile (· ≠ '\n') ≠ [] := by
            intro hp
            apply h2
            rw [hspec, hp]
            rfl
          have hfit : (s.takeWhile (· ≠ '\n')).length < kLineBuf - 1 := by
            have hmem := h1 _ (by rw [hspec]; exact List.mem_singleton.mpr rfl)
            simp only [kLineBuf]
            omega
          rw [hspec]
          unfold codePhysLines
          rw [readPhysLine_eq s hne hfit (fun hc => hprene hc.1)]
          simp only [hrest1, htl, codePhysLines_nil]
          rfl
        | cons c t =>
          rw [htl] at hs hrest1
          have hspec : specPhysLines s
              = s.takeWhile (· ≠ '\n') :: specPhysLines (c :: t) := by
            conv_lhs => rw [hs]
            exact specPhysLines_cons (takeWhile_no_nl s) (by simp)
          have hfit : (s.takeWhile (· ≠ '\n')).length < kLineBuf - 1 := by
            have hmem := h1 _ (by rw [hspec]; exact List.mem_cons_self _ _)
            simp only [kLineBuf]
            omega
          have hok : ¬(s.takeWhile (· ≠ '\n') = []
              ∧ (s.dropWhile (· ≠ '\n')).drop 1 = []) := by
            rintro ⟨-, hr⟩
            rw [hrest1] at hr
            simp at hr
          have hlentl : (c :: t).length < f := by
            have : s.length = (s.takeWhile (· ≠ '\n')).length + 1
                + (c :: t).length := by
              conv_lhs => rw [hs]
              simp only [List.length_append, List.length_cons]
              omega
            omega
          have h1' : ∀ l ∈ specPhysLines (c :: t), l.length ≤ 1022 := by
            intro l hl
            exact h1 l (by rw [hspec]; exact List.mem_cons_of_mem _ hl)
          have h2' : (specPhysLines (c :: t)).getLast? ≠ some [] := by
            intro hcon
            apply h2
            rw [hspec, getLast?_cons_ne (specPhysLines_ne_nil (by simp))]
            exact hcon
          rw [hspec]
          unfold codePhysLines
          rw [readPhysLine_eq s hne hfit hok]
          simp only [hrest1]
          rw [ih (c :: t) hlentl h1' h2']
          rfl

theorem readLogicalGo_eq_foldCont :
    ∀ (fuel : Nat) (s : List Char) (acc : Option (List Char)),
      readLogicalGo fuel s acc = foldContGo (codePhysLines fuel s) acc := by
  intro fuel
  induction fuel with
  | zero => intro s acc; rfl
  | succ f ih =>
    intro s acc
    unfold readLogicalGo codePhysLines
    cases hr : readPhysLine s with
    | none => rfl
    | some pr =>
      obtain ⟨line, rest⟩ := pr
      simp only
      unfold foldContGo
      by_cases hc : line.head? = some ' ' ∨ line.head? = some '\t'
      · rw [if_pos hc, if_pos hc]
        exact ih rest _
      · rw [if_neg hc, if_neg hc]
        cases acc with
        | none => exact ih rest _
        | some l => rw [ih rest _]

/-- C7 (amended): for every byte stream whose physical lines (the
`'\n'`-separated segments, including any trailing `'\r'`) are at most 1022
characters and whose final physical line is non-empty, the line reader
produces exactly the claim's semantics — split on `'\n'`, strip one
trailing `'\r'`, fold continuation lines (leading space or tab removed)
onto the previous logical line, flush the pending line at end of stream —
and an empty stream yields zero logical lines. -/
theorem claim_C7 :
    (∀ s : List Char,
       (∀ l ∈ specPhysLines s, l.length ≤ 1022) →
       (specPhysLines s).getLast? ≠ some [] →
       readLogicalLines s = specLogicalLines s)
    ∧ readLogicalLines [] = [] := by
  constructor
  · intro s h1 h2
    unfold readLogicalLines specLogicalLines
    rw [readLogicalGo_eq_foldCont,
      codePhysLines_eq_spec (s.length + 1) s (by omega) h1 h2]
  · rfl

def docC7 : List Char := List.replicate 1023 'a' ++ '\n' :: ['B']

set_option maxRecDepth 100000 in
/-- C7 counterexample: a physical line of 1023 characters overflows the
1024-byte line buffer, so `readBytesUntil` splits it — the reader yields
three logical lines where splitting on `'\n'` yields two, refuting the
claim for streams with overlong lines. -/
theorem claim_C7_counterexample :
    readLogicalLines docC7 ≠ specLogicalLines docC7 := by
  decide

set_option maxRecDepth 20000 in
theorem claim_C7_witness :
    readLogicalLines ("A\r\n B\nC".toList)
      = specLogicalLines ("A\r\n B\nC".toList)
    ∧ readLogicalLines ("A\r\n B\nC".toList) = ["AB".toList, "C".toList] :=
  ⟨claim_C7.1 ("A\r\n B\nC".toList) (by decide) (by decide), by decide⟩
